import Mathlib

/-!
Shallow embedding of the mqtt-nexus core (`src-tauri/src`): the per-connection
history store (`history.rs`), the connection registry (`mqtt/manager.rs`), the
session command loop and batch emitter (`mqtt/session.rs`), QoS coercion
(`mqtt/mod.rs`), and connection resolution (`commands.rs`).

Machine integers are modelled as `Nat`/`Int` with explicit wrap casts where the
Rust code converts between `u64`, `i64` and `u8`.  The SQLite table is a list
of column-typed rows; `ORDER BY ts_ms DESC, id DESC` is modelled by insertion
sort under the corresponding total preorder, `WHERE` by `List.filter`,
`LIMIT` by `List.take`.
-/

/-- Rust `as i64` applied to a `u64` value: wrap into `[-2^63, 2^63)`. -/
def toI64 (n : Nat) : Int :=
  let m : Nat := n % 2 ^ 64
  if m < 2 ^ 63 then (m : Int) else (m : Int) - 2 ^ 64

/-- Rust `as u64` applied to an `i64` value: wrap into `[0, 2^64)`. -/
def toU64 (i : Int) : Nat := (i % (2 ^ 64 : Int)).toNat

/-- Rust `as u8` applied to an `i64` value: wrap into `[0, 256)`. -/
def toU8 (i : Int) : Nat := (i % (256 : Int)).toNat

/-- `models.rs` `MessageDirection` (serialized lowercase `in`/`out`). -/
inductive MessageDirection
  | In
  | Out
deriving DecidableEq, Repr

/-- `models.rs` `ConnectionStatus`. -/
inductive ConnectionStatus
  | Disconnected
  | Connecting
  | Connected
  | Error
deriving DecidableEq, Repr

/-- `models.rs` `MqttBatchItem`: one buffered message.  `qos` is a `u8` and
`timestamp` a `u64` in the source; representability (`qos < 256`,
`timestamp < 2^63`) is stated as a hypothesis where it matters. -/
structure MqttBatchItem where
  topic : String
  payload : String
  qos : Nat
  retain : Bool
  direction : MessageDirection
  timestamp : Nat
deriving DecidableEq, Repr

/-- `models.rs` `HistoryMessageRecord`: a persisted row as returned to the
caller (`id : i64`, `timestamp : u64`, `qos : u8`). -/
structure HistoryMessageRecord where
  id : Int
  timestamp : Nat
  topic : String
  payload : String
  qos : Nat
  retain : Bool
  direction : MessageDirection
deriving DecidableEq, Repr

/-- A row of the SQLite `message_history` table, in column types:
`id INTEGER PRIMARY KEY AUTOINCREMENT`, `ts_ms INTEGER`, `topic TEXT`,
`payload TEXT`, `qos INTEGER`, `retain INTEGER`, `direction INTEGER`. -/
structure DbRow where
  id : Int
  ts_ms : Int
  topic : String
  payload : String
  qos : Int
  retain : Int
  direction : Int
deriving DecidableEq, Repr

/-- One connection's store file: the table plus the AUTOINCREMENT counter
(next id to assign, starting at 1 for a fresh store). -/
structure Store where
  rows : List DbRow
  nextId : Int
deriving DecidableEq, Repr

/-- A freshly created store (schema initialized, no rows). -/
def emptyStore : Store := ⟨[], 1⟩

/-- `history.rs` `direction_to_int`. -/
def direction_to_int (direction : MessageDirection) : Int :=
  match direction with
  | .Out => 1
  | .In => 0

/-- `history.rs` `row_to_record`: map a fetched row back to the caller-facing
record (`ts_ms as u64`, `qos as u8`, `retain == 1`, `direction == 1 ↦ Out`). -/
def row_to_record (row : DbRow) : HistoryMessageRecord :=
  { id := row.id
    timestamp := toU64 row.ts_ms
    topic := row.topic
    payload := row.payload
    qos := toU8 row.qos
    retain := row.retain = 1
    direction := if row.direction = 1 then .Out else .In }

/-- The column values inserted for one `MqttBatchItem`
(`row.timestamp as i64`, `row.qos as i64`, retain as 1/0). -/
def dbRowOf (id : Int) (m : MqttBatchItem) : DbRow :=
  { id := id
    ts_ms := toI64 m.timestamp
    topic := m.topic
    payload := m.payload
    qos := (m.qos : Int)
    retain := if m.retain then 1 else 0
    direction := direction_to_int m.direction }

/-- The pagination key of a stored row: the `(ts_ms, id)` column pair. -/
def rowKey (r : DbRow) : Int × Int := (r.ts_ms, r.id)

/-- Strict lexicographic order on `(ts_ms, id)` pairs. -/
def keyLt (a b : Int × Int) : Prop := a.1 < b.1 ∨ (a.1 = b.1 ∧ a.2 < b.2)

/-- Lexicographic preorder on `(ts_ms, id)` pairs. -/
def keyLe (a b : Int × Int) : Prop := a.1 < b.1 ∨ (a.1 = b.1 ∧ a.2 ≤ b.2)

instance (a b : Int × Int) : Decidable (keyLt a b) := by
  unfold keyLt; infer_instance

instance (a b : Int × Int) : Decidable (keyLe a b) := by
  unfold keyLe; infer_instance

/-- `ORDER BY ts_ms DESC, id DESC` comparison: `a` comes no later than `b`. -/
def descRel (a b : DbRow) : Prop := keyLe (rowKey b) (rowKey a)

/-- `ORDER BY ts_ms ASC, id ASC` comparison (export). -/
def ascRel (a b : DbRow) : Prop := keyLe (rowKey a) (rowKey b)

instance : DecidableRel descRel := fun a b => by unfold descRel; infer_instance

instance : DecidableRel ascRel := fun a b => by unfold ascRel; infer_instance

theorem keyLe_total (a b : Int × Int) : keyLe a b ∨ keyLe b a := by
  unfold keyLe
  rcases lt_trichotomy a.1 b.1 with h | h | h
  · exact Or.inl (Or.inl h)
  · rcases le_total a.2 b.2 with h2 | h2
    · exact Or.inl (Or.inr ⟨h, h2⟩)
    · exact Or.inr (Or.inr ⟨h.symm, h2⟩)
  · exact Or.inr (Or.inl h)

theorem keyLe_trans {a b c : Int × Int} (hab : keyLe a b) (hbc : keyLe b c) :
    keyLe a c := by
  unfold keyLe at *
  rcases hab with h | ⟨h1, h2⟩
  · rcases hbc with h' | ⟨h1', _⟩
    · exact Or.inl (h.trans h')
    · exact Or.inl (h1' ▸ h)
  · rcases hbc with h' | ⟨h1', h2'⟩
    · exact Or.inl (h1 ▸ h')
    · exact Or.inr ⟨h1.trans h1', h2.trans h2'⟩

theorem keyLt_trans {a b c : Int × Int} (hab : keyLt a b) (hbc : keyLt b c) :
    keyLt a c := by
  unfold keyLt at *
  rcases hab with h | ⟨h1, h2⟩
  · rcases hbc with h' | ⟨h1', _⟩
    · exact Or.inl (h.trans h')
    · exact Or.inl (h1' ▸ h)
  · rcases hbc with h' | ⟨h1', h2'⟩
    · exact Or.inl (h1 ▸ h')
    · exact Or.inr ⟨h1.trans h1', h2.trans h2'⟩

theorem keyLt_irrefl (a : Int × Int) : ¬ keyLt a a := by
  unfold keyLt
  rintro (h | ⟨_, h⟩) <;> exact absurd h (lt_irrefl _)

theorem keyLt_asymm {a b : Int × Int} (h : keyLt a b) : ¬ keyLt b a :=
  fun h' => keyLt_irrefl a (keyLt_trans h h')

theorem keyLt_of_keyLe_of_ne {a b : Int × Int} (h : keyLe a b) (hne : a.2 ≠ b.2) :
    keyLt a b := by
  unfold keyLe at h
  unfold keyLt
  rcases h with h | ⟨h1, h2⟩
  · exact Or.inl h
  · exact Or.inr ⟨h1, lt_of_le_of_ne h2 hne⟩

instance : IsTotal DbRow descRel :=
  ⟨fun a b => by unfold descRel; exact keyLe_total (rowKey b) (rowKey a)⟩

instance : IsTrans DbRow descRel :=
  ⟨fun _ _ _ hab hbc => by unfold descRel at *; exact keyLe_trans hbc hab⟩

instance : IsTotal DbRow ascRel :=
  ⟨fun a b => by unfold ascRel; exact keyLe_total (rowKey a) (rowKey b)⟩

instance : IsTrans DbRow ascRel :=
  ⟨fun _ _ _ hab hbc => by unfold ascRel at *; exact keyLe_trans hab hbc⟩

/-- `history.rs` `MAX_QUERY_LIMIT`. -/
def MAX_QUERY_LIMIT : Nat := 1000

/-- `limit.clamp(1, MAX_QUERY_LIMIT)` on a `usize`. -/
def clampLimit (limit : Nat) : Nat := min (max limit 1) MAX_QUERY_LIMIT

/-- The `WHERE (ts_ms < ?1) OR (ts_ms = ?1 AND id < ?2)` predicate of
`query_before_rows`. -/
def olderThan (beforeTs beforeId : Int) (r : DbRow) : Prop :=
  r.ts_ms < beforeTs ∨ (r.ts_ms = beforeTs ∧ r.id < beforeId)

instance (beforeTs beforeId : Int) (r : DbRow) :
    Decidable (olderThan beforeTs beforeId r) := by
  unfold olderThan; infer_instance

theorem olderThan_iff_keyLt (beforeTs beforeId : Int) (r : DbRow) :
    olderThan beforeTs beforeId r ↔ keyLt (rowKey r) (beforeTs, beforeId) :=
  Iff.rfl

/-- `history.rs` `query_latest_rows`: fetch the newest `limit` rows
(`ORDER BY ts_ms DESC, id DESC LIMIT ?1`), map them to records, then
reverse so the page is oldest→newest. -/
def query_latest_rows (s : Store) (limit : Nat) : List HistoryMessageRecord :=
  ((((List.insertionSort descRel s.rows).take limit).map row_to_record)).reverse

/-- The row list fetched by `query_before_rows` before record mapping:
`WHERE` filter, descending order, `LIMIT`. -/
def fetch_before (s : Store) (beforeTs beforeId : Int) (limit : Nat) : List DbRow :=
  (List.insertionSort descRel
    (s.rows.filter (fun r => decide (olderThan beforeTs beforeId r)))).take limit

/-- `history.rs` `query_before_rows`: cursor page strictly older than
`(beforeTs, beforeId)`, returned oldest→newest. -/
def query_before_rows (s : Store) (beforeTs beforeId : Int) (limit : Nat) :
    List HistoryMessageRecord :=
  ((fetch_before s beforeTs beforeId limit).map row_to_record).reverse

/-- `mqtt/mod.rs` `qos_from_u8` (v3.1.1 client QoS). -/
inductive QoS
  | AtMostOnce
  | AtLeastOnce
  | ExactlyOnce
deriving DecidableEq, Repr

/-- `mqtt/mod.rs` `qos_from_u8`: total coercion of a `u8` into `rumqttc::QoS`. -/
def qos_from_u8 (qos : Nat) : QoS :=
  match qos with
  | 1 => .AtLeastOnce
  | 2 => .ExactlyOnce
  | _ => .AtMostOnce

/-- `mqtt/session.rs` `qos_from_u8_v5`: total coercion of a `u8` into
`rumqttc::v5::mqttbytes::QoS`. -/
def qos_from_u8_v5 (qos : Nat) : QoS :=
  match qos with
  | 1 => .AtLeastOnce
  | 2 => .ExactlyOnce
  | _ => .AtMostOnce

/-- Written from the spec's words, for comparison: q = 1 maps to AtLeastOnce,
q = 2 to ExactlyOnce, every other value to AtMostOnce. -/
def qosSpecMap (qos : Nat) : QoS :=
  if qos = 1 then .AtLeastOnce else if qos = 2 then .ExactlyOnce else .AtMostOnce

/-- Append the rows for one batch, assigning consecutive AUTOINCREMENT ids
starting at `nextId` (the committed effect of `insert_batch`). -/
def assignRows (nextId : Int) : List MqttBatchItem → List DbRow
  | [] => []
  | m :: ms => dbRowOf nextId m :: assignRows (nextId + 1) ms

/-- The store after a fully successful `insert_batch` transaction. -/
def insertAll (s : Store) (msgs : List MqttBatchItem) : Store :=
  ⟨s.rows ++ assignRows s.nextId msgs, s.nextId + msgs.length⟩

/-- The `for row in rows { stmt.execute(...)?; }` loop inside the open
transaction: `execFails i` models the `i`-th `INSERT` statement failing, in
which case the `?` operator aborts the loop with the statement's error. -/
def insertLoop (execFails : Nat → Bool) : Nat → Store → List MqttBatchItem →
    Except String Store
  | _, pending, [] => .ok pending
  | i, pending, m :: rest =>
    if execFails i then .error "failed to insert history row"
    else insertLoop execFails (i + 1)
      ⟨pending.rows ++ [dbRowOf pending.nextId m], pending.nextId + 1⟩ rest

/-- `history.rs` `insert_batch`: run the insert loop inside one transaction.
On an insert error the transaction is dropped uncommitted, so the visible
store is unchanged; `commitFails` models `tx.commit()` failing, which also
rolls back.  Returns the visible store after the call plus the error, if
any. -/
def insert_batch (execFails : Nat → Bool) (commitFails : Bool) (s : Store)
    (rows : List MqttBatchItem) : Store × Option String :=
  match insertLoop execFails 0 s rows with
  | .error e => (s, some e)
  | .ok pending =>
    if commitFails then (s, some "failed to commit history transaction")
    else (pending, none)

/-- `HistoryManager::append_batch`: empty input returns `Ok(())` before any
path resolution or store open; otherwise `open_rw_connection` lazily creates
the store file (with empty schema) and the batch is inserted in one
transaction.  The first component is the store file state after the call
(`none` = the file still does not exist). -/
def HistoryManager.append_batch (execFails : Nat → Bool) (commitFails : Bool)
    (store? : Option Store) (messages : List MqttBatchItem) :
    Option Store × Option String :=
  if messages.isEmpty then (store?, none)
  else
    let s := store?.getD emptyStore
    let r := insert_batch execFails commitFails s messages
    (some r.1, r.2)

/-- `HistoryManager::query_latest`: clamp the limit, return `Ok([])` without
creating anything if the store file does not exist, otherwise read the latest
page.  First component is the store file state after the call. -/
def HistoryManager.query_latest (store? : Option Store) (limit : Nat) :
    Option Store × Except String (List HistoryMessageRecord) :=
  match store? with
  | none => (none, .ok [])
  | some s => (some s, .ok (query_latest_rows s (clampLimit limit)))

/-- `HistoryManager::query_before`: as `query_latest`, with the `u64` cursor
timestamp passed to SQL as `before_ts as i64`. -/
def HistoryManager.query_before (store? : Option Store) (beforeTs : Nat)
    (beforeId : Int) (limit : Nat) :
    Option Store × Except String (List HistoryMessageRecord) :=
  match store? with
  | none => (none, .ok [])
  | some s =>
    (some s, .ok (query_before_rows s (toI64 beforeTs) beforeId (clampLimit limit)))

/-- `history.rs` `escape_csv`: double every embedded `"` and wrap the field in
double quotes.  (Rust `str::replace` with the one-char pattern `'"'`
substitutes each occurrence, modelled character-wise.) -/
def escape_csv (input : String) : String :=
  let escaped : String :=
    String.mk (input.data.flatMap (fun c => if c = '"' then ['"', '"'] else [c]))
  "\"" ++ escaped ++ "\""

/-- The CSV header line written by `export_rows`. -/
def csvHeader : String := "id,timestamp,topic,payload,qos,retain,direction"

/-- One CSV data line of `export_rows`: `id`, `timestamp`, `qos`, `retain`
and `direction` are written bare; only `topic` and `payload` go through
`escape_csv`. -/
def csv_line (record : HistoryMessageRecord) : String :=
  toString record.id ++ "," ++ toString record.timestamp ++ "," ++
    escape_csv record.topic ++ "," ++ escape_csv record.payload ++ "," ++
    toString record.qos ++ "," ++ (if record.retain then "1" else "0") ++ "," ++
    (match record.direction with | .Out => "out" | .In => "in")

/-- Written from the spec's words, for comparison: a CSV line in which every
field is double-quoted (embedded quotes doubled). -/
def csv_line_spec (record : HistoryMessageRecord) : String :=
  escape_csv (toString record.id) ++ "," ++ escape_csv (toString record.timestamp) ++ "," ++
    escape_csv record.topic ++ "," ++ escape_csv record.payload ++ "," ++
    escape_csv (toString record.qos) ++ "," ++
    escape_csv (if record.retain then "1" else "0") ++ "," ++
    escape_csv (match record.direction with | .Out => "out" | .In => "in")

/-- Rust `char::is_whitespace` (the Unicode `White_Space` code points), as
used by `str::trim`. -/
def isRustWhitespace (c : Char) : Bool :=
  c ∈ ['\t', '\n', '\x0b', '\x0c', '\r', ' ', '\u0085', ' ', ' ',
    ' ', ' ', ' ', ' ', ' ', ' ', ' ',
    ' ', ' ', ' ', ' ', ' ', ' ', ' ',
    ' ', '　']

/-- Rust `str::trim`: strip leading and trailing whitespace. -/
def rustTrim (s : String) : String :=
  String.mk (((s.data.dropWhile isRustWhitespace).reverse.dropWhile
    isRustWhitespace).reverse)

/-- Rust `str::eq_ignore_ascii_case` on the strings the code compares. -/
def eqIgnoreAsciiCase (a b : String) : Bool :=
  a.data.map Char.toLower = b.data.map Char.toLower

/-- The rows matched by an export's optional inclusive time bounds, in
`ORDER BY ts_ms ASC, id ASC` order. -/
def export_sorted (s : Store) (fromTs toTs : Option Int) : List DbRow :=
  List.insertionSort ascRel
    (s.rows.filter (fun r =>
      (match fromTs with | none => true | some v => decide (v ≤ r.ts_ms)) &&
      (match toTs with | none => true | some v => decide (r.ts_ms ≤ v))))

/-- A crude rendering of `serde_json::to_string` for one record (camelCase
field names); only the CSV branch is the subject of a claim. -/
def ndjson_line (record : HistoryMessageRecord) : String :=
  "\x7b\x22id\x22:" ++ toString record.id ++
    ",\x22timestamp\x22:" ++ toString record.timestamp ++
    ",\x22topic\x22:" ++ escape_csv record.topic ++
    ",\x22payload\x22:" ++ escape_csv record.payload ++
    ",\x22qos\x22:" ++ toString record.qos ++
    ",\x22retain\x22:" ++ (if record.retain then "true" else "false") ++
    ",\x22direction\x22:\x22" ++
    (match record.direction with | .Out => "out" | .In => "in") ++ "\x22\x7d"

/-- `history.rs` `export_rows`: stream the matching rows in ascending order to
the output file — a CSV header first when the format is `csv`, then one line
per record — and report the row count.  Modelled as the list of lines
written plus the count. -/
def export_rows (s : Store) (format : String) (fromTs toTs : Option Int) :
    List String × Nat :=
  let records := (export_sorted s fromTs toTs).map row_to_record
  if eqIgnoreAsciiCase format "csv" then
    (csvHeader :: records.map csv_line, records.length)
  else
    (records.map ndjson_line, records.length)

/-- `HistoryManager::export_connection`: fails when no store file exists for
the connection (and creates none); otherwise exports all matching rows.
First component is the store file state after the call. -/
def HistoryManager.export_connection (store? : Option Store) (format : String)
    (fromTs toTs : Option Nat) :
    Option Store × Except String (List String × Nat) :=
  match store? with
  | none => (none, .error "no history found for this connection")
  | some s =>
    (some s, .ok (export_rows s format (fromTs.map toI64) (toTs.map toI64)))

/-- `mqtt/manager.rs` `MqttManager`: the process-wide `DashMap` of
connection id → live session handle, modelled as an association list with
map semantics, plus the list of session tokens whose asynchronous shutdown
has been spawned, and a counter generating fresh session tokens. -/
structure MqttManager where
  sessions : List (String × Nat)
  shutdowns : List Nat
  nextToken : Nat
deriving DecidableEq, Repr

/-- The manager at process start. -/
def MqttManager.new : MqttManager := ⟨[], [], 0⟩

/-- `DashMap::remove(&id)`: take out the (unique) entry for the key, if
present. -/
def removeEntry (id : String) : List (String × Nat) → Option Nat × List (String × Nat)
  | [] => (none, [])
  | (k, v) :: rest =>
    if k = id then (some v, rest)
    else
      let r := removeEntry id rest
      (r.1, (k, v) :: r.2)

/-- `DashMap::insert(id, session)`: replace any entry for the key. -/
def insertEntry (id : String) (token : Nat) (table : List (String × Nat)) :
    List (String × Nat) :=
  (id, token) :: table.filter (fun p => p.1 ≠ id)

/-- `MqttManager::connect`: remove any existing session for the id (spawning
its shutdown asynchronously), then start and register a new session. -/
def MqttManager.connect (m : MqttManager) (id : String) : MqttManager :=
  let r := removeEntry id m.sessions
  { sessions := insertEntry id m.nextToken r.2
    shutdowns := match r.1 with
      | some token => token :: m.shutdowns
      | none => m.shutdowns
    nextToken := m.nextToken + 1 }

/-- `mqtt/mod.rs` `MqttError`, as surfaced by the registry operations. -/
inductive MqttErr
  | ConnectionNotFound (id : String)
  | CommandChannelClosed
deriving DecidableEq, Repr

/-- `MqttManager::disconnect`: remove and shut down the session for the id,
or fail with `ConnectionNotFound`. -/
def MqttManager.disconnect (m : MqttManager) (id : String) :
    MqttManager × Option MqttErr :=
  let r := removeEntry id m.sessions
  match r.1 with
  | some token =>
    ({ sessions := r.2, shutdowns := token :: m.shutdowns,
       nextToken := m.nextToken }, none)
  | none => (m, some (.ConnectionNotFound id))

/-- The connect/disconnect operations whose interleavings the registry
invariant quantifies over. -/
inductive RegistryOp
  | connect (id : String)
  | disconnect (id : String)
deriving DecidableEq, Repr

/-- Apply one registry operation to the manager state. -/
def applyRegistryOp (m : MqttManager) : RegistryOp → MqttManager
  | .connect id => m.connect id
  | .disconnect id => (m.disconnect id).1

/-- Run a sequence of registry operations in order from process start. -/
def runRegistryOps (ops : List RegistryOp) : MqttManager :=
  ops.foldl applyRegistryOp MqttManager.new

/-- `mqtt/session.rs` `MqttStatusPayload` emissions on the `mqtt-status`
channel. -/
structure MqttStatusPayload where
  connection_id : String
  status : ConnectionStatus
  last_error : Option String
deriving DecidableEq, Repr

/-- The observable steps of one `flush_batch` call: the `append_batch` call
into the history store, `mqtt-status` emissions, and the `mqtt-message-batch`
emission. -/
inductive FlushStep
  | callAppend (messages : List MqttBatchItem)
  | emitStatus (payload : MqttStatusPayload)
  | emitBatch (connection_id : String) (messages : List MqttBatchItem)
deriving DecidableEq, Repr

/-- `mqtt/session.rs` `flush_batch`: `mem::take` the buffer; if the taken
batch is empty return; otherwise hand the batch to
`HistoryManager::append_batch` (its outcome is the `appendErr` oracle), emit
an Error status when persistence failed, and always emit the batch
notification.  Returns the buffer state after the call and the ordered trace
of observable steps. -/
def flush_batch (connection_id : String) (buffer : List MqttBatchItem)
    (appendErr : Option String) : List MqttBatchItem × List FlushStep :=
  let batch := buffer
  if batch.isEmpty then ([], [])
  else
    ([], [FlushStep.callAppend batch] ++
      (match appendErr with
        | some e =>
          [FlushStep.emitStatus
            ⟨connection_id, .Error, some ("failed to persist history: " ++ e)⟩]
        | none => []) ++
      [FlushStep.emitBatch connection_id batch])

/-- `mqtt/session.rs` `SessionCommand`. -/
inductive SessionCommand
  | Subscribe (topic : String) (qos : Nat)
  | Unsubscribe (topic : String)
  | Publish (topic : String) (payload : String) (qos : Nat) (retain : Bool)
  | Disconnect
deriving DecidableEq, Repr

/-- `mqtt/session.rs` `run_command_loop`: consume commands in order, each
paired with its codec call's outcome (`some e` = the call failed with error
description `e`).  A failure emits an Error status and the loop continues;
a Disconnect — successful or not — emits a final Disconnected status and
breaks.  Returns the ordered `mqtt-status` trace. -/
def run_command_loop (connection_id : String) :
    List (SessionCommand × Option String) → List MqttStatusPayload
  | [] => []
  | (command, result) :: rest =>
    let errEvents : List MqttStatusPayload :=
      match result with
      | some error => [⟨connection_id, .Error, some error⟩]
      | none => []
    if command = .Disconnect then
      errEvents ++ [⟨connection_id, .Disconnected, none⟩]
    else
      errEvents ++ run_command_loop connection_id rest

/-- `models.rs` `TransportProtocol`. -/
inductive TransportProtocol
  | Mqtt
  | Mqtts
  | Ws
  | Wss
deriving DecidableEq, Repr

/-- The fields of `models.rs` `ConnectionProfile` read by
`resolve_connection`. -/
structure ConnectionProfile where
  id : String
  broker_id : Option String
  identity_id : Option String
  host : String
  port : Nat
  protocol : TransportProtocol
  protocol_version : Option Nat
  path : Option String
  username : Option String
  password : Option String
  client_id : String
  clean : Bool
deriving DecidableEq, Repr

/-- The fields of `models.rs` `BrokerConfig` read by `resolve_connection`. -/
structure BrokerConfig where
  id : String
  host : String
  port : Nat
  protocol : TransportProtocol
  path : Option String
deriving DecidableEq, Repr

/-- The fields of `models.rs` `AuthIdentity` read by `resolve_connection`. -/
structure AuthIdentity where
  id : String
  username : Option String
  password : Option String
  client_id : Option String
deriving DecidableEq, Repr

/-- `models.rs` `ResolvedConnection`. -/
structure ResolvedConnection where
  id : String
  host : String
  port : Nat
  protocol : TransportProtocol
  protocol_version : Nat
  path : String
  username : Option String
  password : Option String
  client_id : String
  clean : Bool
deriving DecidableEq, Repr

/-- The broker referenced by the profile, when it resolves:
`brokers.into_iter().find(|b| b.id == broker_id)`. -/
def effBroker (p : ConnectionProfile) (brokers : List BrokerConfig) :
    Option BrokerConfig :=
  p.broker_id.bind (fun bid => brokers.find? (fun b => b.id = bid))

/-- Host after the optional broker override. -/
def effHost (p : ConnectionProfile) (brokers : List BrokerConfig) : String :=
  match effBroker p brokers with
  | some b => b.host
  | none => p.host

/-- Port after the optional broker override. -/
def effPort (p : ConnectionProfile) (brokers : List BrokerConfig) : Nat :=
  match effBroker p brokers with
  | some b => b.port
  | none => p.port

/-- Transport protocol after the optional broker override. -/
def effProtocol (p : ConnectionProfile) (brokers : List BrokerConfig) :
    TransportProtocol :=
  match effBroker p brokers with
  | some b => b.protocol
  | none => p.protocol

/-- Path after the optional broker override (`unwrap_or_default`). -/
def effPath (p : ConnectionProfile) (brokers : List BrokerConfig) : String :=
  match effBroker p brokers with
  | some b => b.path.getD ""
  | none => p.path.getD ""

/-- The identity referenced by the profile, when it resolves. -/
def effIdentity (p : ConnectionProfile) (identities : List AuthIdentity) :
    Option AuthIdentity :=
  p.identity_id.bind (fun iid => identities.find? (fun i => i.id = iid))

/-- `commands.rs` `resolve_connection`: apply broker and identity overrides,
reject a blank host or zero port, normalize the protocol version (anything
but 5 becomes 4) and the path (`/mqtt` default for WebSocket transports,
empty otherwise). -/
def resolve_connection (p : ConnectionProfile) (brokers : List BrokerConfig)
    (identities : List AuthIdentity) : Except String ResolvedConnection :=
  let host := effHost p brokers
  let port := effPort p brokers
  let protocol := effProtocol p brokers
  let path := effPath p brokers
  let ident := effIdentity p identities
  let username := match ident with
    | some i => i.username
    | none => p.username
  let password := match ident with
    | some i => i.password
    | none => p.password
  let client_id := match ident with
    | some i => i.client_id.getD p.client_id
    | none => p.client_id
  if rustTrim host = "" then .error "Broker host is required"
  else if port = 0 then .error "Broker port is required"
  else
    let protocol_version : Nat :=
      match p.protocol_version.getD 4 with
      | 5 => 5
      | _ => 4
    let normalized_path :=
      if protocol = .Ws ∨ protocol = .Wss then
        if rustTrim path = "" then "/mqtt" else path
      else ""
    .ok { id := p.id, host := host, port := port, protocol := protocol,
          protocol_version := protocol_version, path := normalized_path,
          username := username, password := password, client_id := client_id,
          clean := p.clean }

/-- `commands.rs` `mqtt_connect`: resolve the profile; on a resolution error
return it without touching the registry (no session is created), otherwise
register a session under the resolved id. -/
def mqtt_connect (m : MqttManager) (p : ConnectionProfile)
    (brokers : List BrokerConfig) (identities : List AuthIdentity) :
    MqttManager × Option String :=
  match resolve_connection p brokers identities with
  | .error e => (m, some e)
  | .ok resolved => (m.connect resolved.id, none)

/-- One pagination step at the command surface: the cursor is a
`(timestamp : u64, id : i64)` pair taken from a returned record;
`HistoryManager::query_before` passes the timestamp to SQL as `as i64`. -/
def pageQuery (s : Store) (limit : Nat) (cursor : Nat × Int) :
    List HistoryMessageRecord :=
  query_before_rows s (toI64 cursor.1) cursor.2 limit

/-- Repeated cursor pagination advancing with the oldest record of each
returned page (the page is oldest→newest, so this is its first element —
the last row fetched by the descending query).  Stops on an empty page. -/
def pagesFrom (s : Store) (limit : Nat) : Nat × Int → Nat →
    List HistoryMessageRecord
  | _, 0 => []
  | cursor, fuel + 1 =>
    let page := pageQuery s limit cursor
    match page.head? with
    | none => []
    | some r => page ++ pagesFrom s limit (r.timestamp, r.id) fuel

/-- Repeated cursor pagination advancing with the literal last element of
each returned page (the newest record in the page), as the claim reads. -/
def pagesLast (s : Store) (limit : Nat) : Nat × Int → Nat →
    List HistoryMessageRecord
  | _, 0 => []
  | cursor, fuel + 1 =>
    let page := pageQuery s limit cursor
    match page.getLast? with
    | none => []
    | some r => page ++ pagesLast s limit (r.timestamp, r.id) fuel

/-- Decode the body of a double-quoted CSV field: undouble embedded quotes,
stop at the closing quote, reject a stray quote. -/
def unquoteBody : List Char → Option (List Char)
  | [] => none
  | c :: rest =>
    if c = '"' then
      match rest with
      | [] => some []
      | d :: rest2 =>
        if d = '"' then (unquoteBody rest2).map (fun x => '"' :: x)
        else none
    else (unquoteBody rest).map (fun x => c :: x)

/-- Decode one double-quoted CSV field (the inverse direction of
`escape_csv`). -/
def csv_unescape (s : String) : Option String :=
  match s.data with
  | '"' :: rest => (unquoteBody rest).map String.mk
  | _ => none

theorem removeEntry_sublist (id : String) (l : List (String × Nat)) :
    (removeEntry id l).2.Sublist l := by
  induction l with
  | nil => simp [removeEntry]
  | cons p rest ih =>
    simp only [removeEntry]
    split
    · exact (List.sublist_cons_self p rest)
    · exact ih.cons₂ p

theorem insertEntry_keys_nodup (id : String) (token : Nat)
    (l : List (String × Nat)) (h : (l.map Prod.fst).Nodup) :
    ((insertEntry id token l).map Prod.fst).Nodup := by
  unfold insertEntry
  simp only [List.map_cons, List.nodup_cons]
  refine ⟨?_, ?_⟩
  · intro hmem
    obtain ⟨p, hp, hfst⟩ := List.mem_map.1 hmem
    have hne := List.of_mem_filter hp
    simp only [decide_not, Bool.not_eq_true', decide_eq_false_iff_not] at hne
    exact hne hfst
  · exact h.sublist ((List.filter_sublist l).map Prod.fst)

theorem applyRegistryOp_keys_nodup (m : MqttManager) (op : RegistryOp)
    (h : (m.sessions.map Prod.fst).Nodup) :
    (((applyRegistryOp m op).sessions.map Prod.fst)).Nodup := by
  cases op with
  | connect id =>
    simp only [applyRegistryOp, MqttManager.connect]
    exact insertEntry_keys_nodup id m.nextToken _
      (h.sublist ((removeEntry_sublist id m.sessions).map Prod.fst))
  | disconnect id =>
    simp only [applyRegistryOp, MqttManager.disconnect]
    cases hrem : (removeEntry id m.sessions).1 with
    | some token =>
      simp only [hrem]
      exact h.sublist ((removeEntry_sublist id m.sessions).map Prod.fst)
    | none => simp only [hrem]; exact h

theorem runRegistryOps_keys_nodup (ops : List RegistryOp) :
    (((runRegistryOps ops).sessions.map Prod.fst)).Nodup := by
  unfold runRegistryOps
  have general : ∀ (l : List RegistryOp) (m : MqttManager),
      (m.sessions.map Prod.fst).Nodup →
      (((l.foldl applyRegistryOp m).sessions.map Prod.fst)).Nodup := by
    intro l
    induction l with
    | nil => intro m h; exact h
    | cons op rest ih =>
      intro m h
      exact ih (applyRegistryOp m op) (applyRegistryOp_keys_nodup m op h)
  exact general ops MqttManager.new (by simp [MqttManager.new])

theorem countP_key_le_one_of_nodup (l : List (String × Nat)) (id : String)
    (h : (l.map Prod.fst).Nodup) : l.countP (fun p => p.1 = id) ≤ 1 := by
  induction l with
  | nil => simp
  | cons p rest ih =>
    simp only [List.map_cons, List.nodup_cons] at h
    by_cases hp : p.1 = id
    · rw [List.countP_cons_of_pos _ _ (by simpa using hp)]
      have : rest.countP (fun q => q.1 = id) = 0 := by
        rw [List.countP_eq_zero]
        intro q hq
        simp only [decide_eq_true_eq]
        intro hq1
        exact h.1 (List.mem_map.2 ⟨q, hq, (hq1.trans hp.symm)⟩)
      omega
    · rw [List.countP_cons_of_neg _ _ (by simpa using hp)]
      exact ih h.2

/-- C1: at most one Session is registered per connection id at any instant:
over every interleaving of `connect`/`disconnect` operations from process
start, the registry's key set stays duplicate-free (`connect` removes any
existing entry — scheduling its shutdown — before registering the new
session, `disconnect` removes the entry), so no id ever has two registered
sessions. -/
theorem registry_at_most_one_session_per_id (ops : List RegistryOp)
    (id : String) :
    (((runRegistryOps ops).sessions.map Prod.fst)).Nodup ∧
      (runRegistryOps ops).sessions.countP (fun p => p.1 = id) ≤ 1 :=
  ⟨runRegistryOps_keys_nodup ops,
    countP_key_le_one_of_nodup _ id (runRegistryOps_keys_nodup ops)⟩

/-- C10: both protocol variants coerce a QoS byte totally — 1 ↦ AtLeastOnce,
2 ↦ ExactlyOnce, and every other value (0 and everything above 2) silently
↦ AtMostOnce; in particular an out-of-range QoS of 7 is sent as QoS 0, never
surfaced as an error. -/
theorem qos_coercion_total (q : Nat) :
    qos_from_u8 q = qosSpecMap q ∧ qos_from_u8_v5 q = qosSpecMap q ∧
      qos_from_u8 7 = QoS.AtMostOnce ∧ qos_from_u8_v5 7 = QoS.AtMostOnce := by
  refine ⟨?_, ?_, rfl, rfl⟩ <;>
    match q with
    | 0 => rfl
    | 1 => rfl
    | 2 => rfl
    | (n + 3) => rfl

/-- C8: when no store file exists for a connection, `query_latest` and
`query_before` succeed with an empty page, `export_connection` fails, and
none of the three creates a store file. -/
theorem missing_store_file_behavior (limit fuelTs : Nat) (beforeId : Int)
    (format : String) (fromTs toTs : Option Nat) :
    HistoryManager.query_latest none limit = (none, .ok []) ∧
      HistoryManager.query_before none fuelTs beforeId limit = (none, .ok []) ∧
      HistoryManager.export_connection none format fromTs toTs =
        (none, .error "no history found for this connection") :=
  ⟨rfl, rfl, rfl⟩

/-- A sample inbound message used by concrete witnesses. -/
def sampleItem : MqttBatchItem :=
  { topic := "a/b", payload := "1", qos := 0, retain := false,
    direction := .In, timestamp := 1000 }

/-- A second sample message. -/
def sampleItem2 : MqttBatchItem :=
  { topic := "a/b", payload := "2", qos := 1, retain := false,
    direction := .In, timestamp := 1000 }

/-- C6: a non-empty flush empties the buffer, first hands the batch (in
arrival order) to the history store's append, and always republishes the
batch to the notification boundary afterwards; a persistence failure adds an
Error status event but never suppresses the batch notification. -/
theorem flush_batch_republishes_even_on_error (cid : String)
    (buffer : List MqttBatchItem) (appendErr : Option String)
    (hne : buffer ≠ []) :
    (flush_batch cid buffer appendErr).1 = [] ∧
      (flush_batch cid buffer appendErr).2.head? =
        some (FlushStep.callAppend buffer) ∧
      (flush_batch cid buffer appendErr).2.getLast? =
        some (FlushStep.emitBatch cid buffer) ∧
      (flush_batch cid buffer appendErr).2 =
        [FlushStep.callAppend buffer] ++
          (match appendErr with
            | some e =>
              [FlushStep.emitStatus
                ⟨cid, .Error, some ("failed to persist history: " ++ e)⟩]
            | none => []) ++
          [FlushStep.emitBatch cid buffer] := by
  have hbe : buffer.isEmpty = false := by
    cases buffer with
    | nil => exact absurd rfl hne
    | cons _ _ => rfl
  cases appendErr with
  | none => simp [flush_batch, hbe]
  | some e => simp [flush_batch, hbe]

theorem flush_batch_republishes_even_on_error_witness :
    (flush_batch "c1" [sampleItem] (some "disk full")).1 = [] ∧
      (flush_batch "c1" [sampleItem] (some "disk full")).2.head? =
        some (FlushStep.callAppend [sampleItem]) ∧
      (flush_batch "c1" [sampleItem] (some "disk full")).2.getLast? =
        some (FlushStep.emitBatch "c1" [sampleItem]) ∧
      (flush_batch "c1" [sampleItem] (some "disk full")).2 =
        [FlushStep.callAppend [sampleItem]] ++
          [FlushStep.emitStatus
            ⟨"c1", .Error, some ("failed to persist history: " ++ "disk full")⟩] ++
          [FlushStep.emitBatch "c1" [sampleItem]] :=
  flush_batch_republishes_even_on_error "c1" [sampleItem] (some "disk full")
    (by decide)

/-- The Error events contributed by one command's codec result. -/
def errEventsOf (cid : String) (result : Option String) :
    List MqttStatusPayload :=
  match result with
  | some error => [⟨cid, .Error, some error⟩]
  | none => []

/-- C7: a failing Subscribe/Unsubscribe/Publish emits an Error status with
the command's error description and the loop moves on to the next command,
so a disconnect-free prefix is processed in full; a Disconnect — whether its
codec call succeeds or fails — emits a final Disconnected status and
terminates the loop, ignoring everything queued after it. -/
theorem command_loop_continues_until_disconnect (cid : String)
    (pre : List (SessionCommand × Option String)) (r : Option String)
    (post : List (SessionCommand × Option String))
    (hpre : ∀ p ∈ pre, p.1 ≠ SessionCommand.Disconnect) :
    run_command_loop cid pre = pre.flatMap (fun p => errEventsOf cid p.2) ∧
      run_command_loop cid (pre ++ (SessionCommand.Disconnect, r) :: post) =
        pre.flatMap (fun p => errEventsOf cid p.2) ++ errEventsOf cid r ++
          [⟨cid, ConnectionStatus.Disconnected, none⟩] := by
  induction pre with
  | nil =>
    refine ⟨rfl, ?_⟩
    cases r with
    | none => simp [run_command_loop, errEventsOf]
    | some e => simp [run_command_loop, errEventsOf]
  | cons p rest ih =>
    have hp : p.1 ≠ SessionCommand.Disconnect := hpre p (by simp)
    have hrest : ∀ q ∈ rest, q.1 ≠ SessionCommand.Disconnect := fun q hq =>
      hpre q (by simp [hq])
    obtain ⟨ih1, ih2⟩ := ih hrest
    constructor
    · cases hres : p.2 with
      | none =>
        simp only [run_command_loop, List.flatMap_cons]
        rw [if_neg hp]
        simp [hres, errEventsOf, ih1]
      | some e =>
        simp only [run_command_loop, List.flatMap_cons]
        rw [if_neg hp]
        simp [hres, errEventsOf, ih1]
    · cases hres : p.2 with
      | none =>
        simp only [List.cons_append, run_command_loop, List.flatMap_cons]
        rw [if_neg hp]
        simp [hres, errEventsOf, ih2]
      | some e =>
        simp only [List.cons_append, run_command_loop, List.flatMap_cons]
        rw [if_neg hp]
        simp [hres, errEventsOf, ih2]

theorem command_loop_continues_until_disconnect_witness :
    run_command_loop "c1"
        [(SessionCommand.Subscribe "a" 1, some "sub failed"),
         (SessionCommand.Publish "a" "p" 0 false, none)] =
      [(SessionCommand.Subscribe "a" 1, some "sub failed"),
       (SessionCommand.Publish "a" "p" 0 false, none)].flatMap
        (fun p => errEventsOf "c1" p.2) ∧
      run_command_loop "c1"
          ([(SessionCommand.Subscribe "a" 1, some "sub failed"),
            (SessionCommand.Publish "a" "p" 0 false, none)] ++
            (SessionCommand.Disconnect, some "net down") ::
              [(SessionCommand.Unsubscribe "a", none)]) =
        [(SessionCommand.Subscribe "a" 1, some "sub failed"),
         (SessionCommand.Publish "a" "p" 0 false, none)].flatMap
          (fun p => errEventsOf "c1" p.2) ++
          errEventsOf "c1" (some "net down") ++
          [⟨"c1", ConnectionStatus.Disconnected, none⟩] :=
  command_loop_continues_until_disconnect "c1"
    [(SessionCommand.Subscribe "a" 1, some "sub failed"),
     (SessionCommand.Publish "a" "p" 0 false, none)]
    (some "net down") [(SessionCommand.Unsubscribe "a", none)] (by decide)

theorem insertLoop_spec (execFails : Nat → Bool) :
    ∀ (msgs : List MqttBatchItem) (i : Nat) (s : Store),
    (∃ e, insertLoop execFails i s msgs = .error e) ∨
      insertLoop execFails i s msgs =
        .ok ⟨s.rows ++ assignRows s.nextId msgs, s.nextId + msgs.length⟩ := by
  intro msgs
  induction msgs with
  | nil =>
    intro i s
    right
    simp [insertLoop, assignRows]
  | cons m rest ih =>
    intro i s
    by_cases hf : execFails i = true
    · exact Or.inl ⟨"failed to insert history row", by simp [insertLoop, hf]⟩
    · rcases ih (i + 1) ⟨s.rows ++ [dbRowOf s.nextId m], s.nextId + 1⟩ with ⟨e, he⟩ | hok
      · refine Or.inl ⟨e, ?_⟩
        simpa [insertLoop, hf] using he
      · right
        have : insertLoop execFails i s (m :: rest) =
            insertLoop execFails (i + 1)
              ⟨s.rows ++ [dbRowOf s.nextId m], s.nextId + 1⟩ rest := by
          simp [insertLoop, hf]
        rw [this, hok]
        simp only [assignRows, List.length_cons, Except.ok.injEq, Store.mk.injEq]
        constructor
        · simp [List.append_assoc]
        · push_cast
          ring

/-- C4: `append_batch` on an empty batch succeeds without touching the store;
on a non-empty batch it either commits every row — appended in order with
consecutive AUTOINCREMENT ids — or fails leaving the table exactly as it was
(the transaction rolls back), never a partially visible batch. -/
theorem append_batch_all_or_nothing (execFails : Nat → Bool)
    (commitFails : Bool) (store? : Option Store)
    (messages : List MqttBatchItem) :
    (messages = [] →
      HistoryManager.append_batch execFails commitFails store? messages =
        (store?, none)) ∧
      (messages ≠ [] →
        HistoryManager.append_batch execFails commitFails store? messages =
          (some ⟨(store?.getD emptyStore).rows ++
                   assignRows (store?.getD emptyStore).nextId messages,
                 (store?.getD emptyStore).nextId + messages.length⟩, none) ∨
        ((HistoryManager.append_batch execFails commitFails store? messages).1 =
            some (store?.getD emptyStore) ∧
          (HistoryManager.append_batch execFails commitFails store? messages).2 ≠
            none)) := by
  constructor
  · intro hempty
    subst hempty
    rfl
  · intro hne
    have hbe : messages.isEmpty = false := by
      cases messages with
      | nil => exact absurd rfl hne
      | cons _ _ => rfl
    rcases insertLoop_spec execFails messages 0 (store?.getD emptyStore) with
      ⟨e, he⟩ | hok
    · right
      simp [HistoryManager.append_batch, hbe, insert_batch, he]
    · by_cases hc : commitFails = true
      · right
        simp [HistoryManager.append_batch, hbe, insert_batch, hok, hc]
      · left
        simp only [Bool.not_eq_true] at hc
        simp [HistoryManager.append_batch, hbe, insert_batch, hok, hc]

theorem append_batch_all_or_nothing_witness :
    (([sampleItem, sampleItem2] : List MqttBatchItem) = [] →
      HistoryManager.append_batch (fun i => decide (i = 1)) false
          (some emptyStore) [sampleItem, sampleItem2] =
        (some emptyStore, none)) ∧
      (([sampleItem, sampleItem2] : List MqttBatchItem) ≠ [] →
        HistoryManager.append_batch (fun i => decide (i = 1)) false
            (some emptyStore) [sampleItem, sampleItem2] =
          (some ⟨((some emptyStore).getD emptyStore).rows ++
                   assignRows ((some emptyStore).getD emptyStore).nextId
                     [sampleItem, sampleItem2],
                 ((some emptyStore).getD emptyStore).nextId +
                   ([sampleItem, sampleItem2] : List MqttBatchItem).length⟩,
            none) ∨
        ((HistoryManager.append_batch (fun i => decide (i = 1)) false
              (some emptyStore) [sampleItem, sampleItem2]).1 =
            some ((some emptyStore).getD emptyStore) ∧
          (HistoryManager.append_batch (fun i => decide (i = 1)) false
              (some emptyStore) [sampleItem, sampleItem2]).2 ≠ none)) :=
  append_batch_all_or_nothing (fun i => decide (i = 1)) false
    (some emptyStore) [sampleItem, sampleItem2]

/-- C9: connection resolution normalizes every requested protocol version
other than 5 (including absent) to 4; for WebSocket transports a blank
(empty/whitespace) path becomes `/mqtt` and a non-blank path is kept, while
non-WebSocket transports get an empty path; a blank host is rejected with an
error before any session is registered. -/
theorem resolve_connection_normalizes (m : MqttManager) (p : ConnectionProfile)
    (brokers : List BrokerConfig) (identities : List AuthIdentity)
    (r : ResolvedConnection) :
    (rustTrim (effHost p brokers) = "" →
      mqtt_connect m p brokers identities = (m, some "Broker host is required")) ∧
      (resolve_connection p brokers identities = .ok r →
        (r.protocol_version = if p.protocol_version = some 5 then 5 else 4) ∧
        ((effProtocol p brokers = .Ws ∨ effProtocol p brokers = .Wss) →
          (rustTrim (effPath p brokers) = "" → r.path = "/mqtt") ∧
          (rustTrim (effPath p brokers) ≠ "" → r.path = effPath p brokers)) ∧
        ((effProtocol p brokers ≠ .Ws ∧ effProtocol p brokers ≠ .Wss) →
          r.path = "")) := by
  constructor
  · intro hhost
    have herr : resolve_connection p brokers identities =
        .error "Broker host is required" := by
      simp only [resolve_connection]
      rw [if_pos hhost]
    simp only [mqtt_connect, herr]
  · intro hok
    unfold resolve_connection at hok
    by_cases hhost : rustTrim (effHost p brokers) = ""
    · simp [hhost] at hok
    · rw [if_neg hhost] at hok
      by_cases hport : effPort p brokers = 0
      · simp [hport] at hok
      · rw [if_neg hport] at hok
        simp only [Except.ok.injEq] at hok
        subst hok
        refine ⟨?_, ?_, ?_⟩
        · cases hv : p.protocol_version with
          | none => simp [hv, Option.getD]
          | some v =>
            simp only [hv, Option.getD_some]
            by_cases h5 : v = 5
            · subst h5; simp
            · have : (match v with | 5 => (5 : Nat) | _ => 4) = 4 := by
                match v, h5 with
                | 0, _ => rfl
                | 1, _ => rfl
                | 2, _ => rfl
                | 3, _ => rfl
                | 4, _ => rfl
                | (n + 6), _ => rfl
                | 5, h5 => exact absurd rfl h5
              rw [this]
              simp [Option.some.injEq, h5]
        · intro hws
          constructor
          · intro hpath
            simp only [if_pos hws, if_pos hpath]
          · intro hpath
            simp only [if_pos hws, if_neg hpath]
        · intro hnws
          have : ¬ (effProtocol p brokers = .Ws ∨ effProtocol p brokers = .Wss) := by
            rintro (h | h)
            · exact hnws.1 h
            · exact hnws.2 h
          simp only [if_neg this]

/-- A profile with a blank (whitespace) host, for the rejection branch. -/
def blankHostProfile : ConnectionProfile :=
  { id := "conn-1", broker_id := none, identity_id := none, host := "  ",
    port := 1883, protocol := .Mqtt, protocol_version := some 4, path := none,
    username := none, password := none, client_id := "cid", clean := true }

/-- A WebSocket profile with a blank path and a requested protocol version
of 3, for the normalization branch. -/
def wsProfile : ConnectionProfile :=
  { id := "conn-2", broker_id := none, identity_id := none, host := "example.org",
    port := 8083, protocol := .Ws, protocol_version := some 3, path := some " ",
    username := none, password := none, client_id := "cid2", clean := false }

/-- The resolution result for `wsProfile`. -/
def wsResolved : ResolvedConnection :=
  { id := "conn-2", host := "example.org", port := 8083, protocol := .Ws,
    protocol_version := 4, path := "/mqtt", username := none, password := none,
    client_id := "cid2", clean := false }

theorem resolve_connection_normalizes_witness :
    mqtt_connect MqttManager.new blankHostProfile [] [] =
        (MqttManager.new, some "Broker host is required") ∧
      wsResolved.protocol_version = 4 ∧ wsResolved.path = "/mqtt" := by
  refine ⟨?_, ?_, ?_⟩
  · exact (resolve_connection_normalizes MqttManager.new blankHostProfile [] []
      wsResolved).1 (by decide)
  · exact (((resolve_connection_normalizes MqttManager.new wsProfile [] []
      wsResolved).2 (by rfl)).1).trans (by decide)
  · exact ((((resolve_connection_normalizes MqttManager.new wsProfile [] []
      wsResolved).2 (by rfl)).2).1 (by decide)).1 (by decide)

theorem unquoteBody_escape (cs : List Char) :
    unquoteBody
        ((cs.flatMap (fun c => if c = '"' then ['"', '"'] else [c])) ++ ['"']) =
      some cs := by
  induction cs with
  | nil => simp [unquoteBody]
  | cons c rest ih =>
    by_cases hc : c = '"'
    · subst hc
      simp only [List.flatMap_cons, if_pos rfl, List.cons_append,
        List.append_assoc]
      simp [unquoteBody, ih]
    · simp only [List.flatMap_cons, if_neg hc, List.singleton_append,
        List.cons_append]
      rw [unquoteBody.eq_def]
      simp only [if_neg hc, List.nil_append]
      rw [ih]
      rfl

theorem csv_unescape_escape_csv (s : String) :
    csv_unescape (escape_csv s) = some s := by
  have hdata : (escape_csv s).data =
      '"' :: ((s.data.flatMap (fun c => if c = '"' then ['"', '"'] else [c])) ++
        ['"']) := by
    simp [escape_csv, String.data_append]
  unfold csv_unescape
  rw [hdata]
  simp [unquoteBody_escape]

/-- The record exhibiting that not every CSV field is quoted. -/
def cexExportRecord : HistoryMessageRecord :=
  { id := 1, timestamp := 2, topic := "t", payload := "p", qos := 0,
    retain := false, direction := .In }

/-- C5 counterexample: the CSV line actually written for a concrete record is
not the line the claim describes — its first (`id`) field starts with the
bare digit `1`, not a double quote, so not every field is double-quoted. -/
theorem csv_line_not_all_fields_quoted :
    csv_line cexExportRecord ≠ csv_line_spec cexExportRecord ∧
      (csv_line cexExportRecord).data.head? = some '1' := by
  constructor
  · decide
  · decide

/-- C5 (amended): the CSV export writes the header row
`id,timestamp,topic,payload,qos,retain,direction` and one line per matching
record in which the `topic` and `payload` fields are double-quoted with
embedded double quotes doubled (the `id`, `timestamp`, `qos`, `retain` and
`direction` fields are written bare), and a quoted field — hence a payload
containing embedded double-quote and comma characters — round-trips
losslessly through the quoting. -/
theorem csv_export_header_quoting_roundtrip (s : Store)
    (fromTs toTs : Option Int) (payload : String) :
    (export_rows s "csv" fromTs toTs).1 =
        csvHeader :: ((export_sorted s fromTs toTs).map row_to_record).map csv_line ∧
      (export_rows s "csv" fromTs toTs).2 =
        ((export_sorted s fromTs toTs).map row_to_record).length ∧
      csv_unescape (escape_csv payload) = some payload :=
  ⟨rfl, rfl, csv_unescape_escape_csv payload⟩

theorem toI64_small {n : Nat} (h : n < 2 ^ 63) : toI64 n = n := by
  simp only [toI64]
  split <;> omega

theorem toU64_toI64 {n : Nat} (h : n < 2 ^ 63) : toU64 (toI64 n) = n := by
  simp only [toI64, toU64]
  split <;> omega

theorem toI64_toU64 {x : Int} (h1 : -(2 ^ 63) ≤ x) (h2 : x < 2 ^ 63) :
    toI64 (toU64 x) = x := by
  simp only [toI64, toU64]
  split <;> omega

theorem toI64_range (n : Nat) : -(2 ^ 63) ≤ toI64 n ∧ toI64 n < 2 ^ 63 := by
  simp only [toI64]
  split <;> omega

theorem toU8_ofNat {q : Nat} (h : q < 256) : toU8 (q : Int) = q := by
  simp only [toU8]
  omega

/-- The store invariants maintained by SQLite: primary-key ids are unique and
the `ts_ms` column holds `i64` values. -/
def storeWf (s : Store) : Prop :=
  (s.rows.map DbRow.id).Nodup ∧
    ∀ r ∈ s.rows, -(2 ^ 63) ≤ r.ts_ms ∧ r.ts_ms < 2 ^ 63

instance (s : Store) : Decidable (storeWf s) := by
  unfold storeWf; infer_instance

/-- Representability of a batch's `u64`/`u8` fields (automatic in Rust,
a hypothesis over the `Nat` embedding). -/
def batchWf (msgs : List MqttBatchItem) : Prop :=
  ∀ m ∈ msgs, m.timestamp < 2 ^ 63 ∧ m.qos < 256

instance (msgs : List MqttBatchItem) : Decidable (batchWf msgs) := by
  unfold batchWf; infer_instance

/-- Strict chronological order on returned records: earlier timestamp, or
equal timestamp and smaller id. -/
def recLt (a b : HistoryMessageRecord) : Prop :=
  a.timestamp < b.timestamp ∨ (a.timestamp = b.timestamp ∧ a.id < b.id)

instance (a b : HistoryMessageRecord) : Decidable (recLt a b) := by
  unfold recLt; infer_instance

/-- The records a batch turns into when appended starting at id `nextId`. -/
def recordsOfBatch (nextId : Int) : List MqttBatchItem → List HistoryMessageRecord
  | [] => []
  | m :: ms =>
    { id := nextId, timestamp := m.timestamp, topic := m.topic,
      payload := m.payload, qos := m.qos, retain := m.retain,
      direction := m.direction } :: recordsOfBatch (nextId + 1) ms

theorem assignRows_id_bounds :
    ∀ (msgs : List MqttBatchItem) (k : Int) (r : DbRow),
      r ∈ assignRows k msgs → k ≤ r.id ∧ r.id < k + msgs.length := by
  intro msgs
  induction msgs with
  | nil => intro k r hr; simp [assignRows] at hr
  | cons m ms ih =>
    intro k r hr
    simp only [assignRows, List.mem_cons] at hr
    rcases hr with rfl | hr
    · simp only [dbRowOf, List.length_cons]
      push_cast
      omega
    · have := ih (k + 1) r hr
      simp only [List.length_cons]
      push_cast at this ⊢
      omega

theorem assignRows_ids_nodup :
    ∀ (msgs : List MqttBatchItem) (k : Int),
      ((assignRows k msgs).map DbRow.id).Nodup := by
  intro msgs
  induction msgs with
  | nil => intro k; simp [assignRows]
  | cons m ms ih =>
    intro k
    simp only [assignRows, List.map_cons, List.nodup_cons]
    refine ⟨?_, ih (k + 1)⟩
    intro hmem
    obtain ⟨r, hr, hid⟩ := List.mem_map.1 hmem
    have := assignRows_id_bounds ms (k + 1) r hr
    simp only [dbRowOf] at hid
    omega

theorem assignRows_ts_range :
    ∀ (msgs : List MqttBatchItem) (k : Int) (r : DbRow),
      r ∈ assignRows k msgs → -(2 ^ 63) ≤ r.ts_ms ∧ r.ts_ms < 2 ^ 63 := by
  intro msgs
  induction msgs with
  | nil => intro k r hr; simp [assignRows] at hr
  | cons m ms ih =>
    intro k r hr
    simp only [assignRows, List.mem_cons] at hr
    rcases hr with rfl | hr
    · simp only [dbRowOf]
      exact toI64_range m.timestamp
    · exact ih (k + 1) r hr

theorem retain_int_roundtrip (b : Bool) :
    decide (((if b then 1 else 0) : Int) = 1) = b := by
  cases b <;> simp

theorem direction_int_roundtrip (d : MessageDirection) :
    (if direction_to_int d = 1 then MessageDirection.Out else .In) = d := by
  cases d <;> simp [direction_to_int]

theorem map_rtr_assignRows :
    ∀ (msgs : List MqttBatchItem) (k : Int), batchWf msgs →
      (assignRows k msgs).map row_to_record = recordsOfBatch k msgs := by
  intro msgs
  induction msgs with
  | nil => intro k _; rfl
  | cons m ms ih =>
    intro k hwf
    have hm := hwf m (by simp)
    simp only [assignRows, List.map_cons, recordsOfBatch]
    congr 1
    · simp [row_to_record, dbRowOf, toU64_toI64 hm.1, toU8_ofNat hm.2,
        retain_int_roundtrip, direction_int_roundtrip]
    · exact ih (k + 1) (fun x hx => hwf x (by simp [hx]))

theorem pairwise_keyLt_of_sorted_nodup (l : List DbRow)
    (hs : List.Sorted descRel l) (hn : (l.map DbRow.id).Nodup) :
    l.Pairwise (fun a b => keyLt (rowKey b) (rowKey a)) := by
  have hne : l.Pairwise (fun a b => a.id ≠ b.id) := List.pairwise_map.1 hn
  have := hs.and hne
  exact this.imp (fun {a b} h =>
    keyLt_of_keyLe_of_ne h.1 (fun hid => h.2 (by
      have : (rowKey b).2 = (rowKey a).2 := hid
      simpa [rowKey] using this.symm)))

theorem filter_olderThan_split (xs ys : List DbRow) (x : DbRow)
    (hp : (xs ++ x :: ys).Pairwise (fun a b => keyLt (rowKey b) (rowKey a))) :
    (xs ++ x :: ys).filter (fun r => decide (olderThan x.ts_ms x.id r)) = ys := by
  rcases List.pairwise_append.1 hp with ⟨_, hxys, hcross⟩
  rw [List.filter_append]
  have h1 : xs.filter (fun r => decide (olderThan x.ts_ms x.id r)) = [] := by
    rw [List.filter_eq_nil_iff]
    intro a ha
    have hxa : keyLt (rowKey x) (rowKey a) := hcross a ha x (by simp)
    simp only [decide_eq_true_eq]
    rw [olderThan_iff_keyLt]
    exact keyLt_asymm hxa
  have h2 : (x :: ys).filter (fun r => decide (olderThan x.ts_ms x.id r)) = ys := by
    rw [List.filter_cons]
    have hx : ¬ olderThan x.ts_ms x.id x := by
      rw [olderThan_iff_keyLt]
      exact keyLt_irrefl (rowKey x)
    rw [if_neg (by simpa using hx)]
    rw [List.filter_eq_self]
    intro b hb
    have := (List.pairwise_cons.1 hxys).1 b hb
    simp only [decide_eq_true_eq]
    rw [olderThan_iff_keyLt]
    exact this
  rw [h1, h2, List.nil_append]
theorem toU64_lt_iff {x y : Int} (hx : 0 ≤ x) (hx2 : x < 2 ^ 64) (hy : 0 ≤ y)
    (hy2 : y < 2 ^ 64) : toU64 x < toU64 y ↔ x < y := by
  simp only [toU64]
  omega

theorem toU64_eq_iff {x y : Int} (hx : 0 ≤ x) (hx2 : x < 2 ^ 64) (hy : 0 ≤ y)
    (hy2 : y < 2 ^ 64) : toU64 x = toU64 y ↔ x = y := by
  simp only [toU64]
  omega

theorem assignRows_length :
    ∀ (msgs : List MqttBatchItem) (k : Int),
      (assignRows k msgs).length = msgs.length := by
  intro msgs
  induction msgs with
  | nil => intro k; rfl
  | cons m ms ih => intro k; simp [assignRows, ih]

theorem assignRows_ts_nonneg :
    ∀ (msgs : List MqttBatchItem) (k : Int), batchWf msgs →
      ∀ r ∈ assignRows k msgs, 0 ≤ r.ts_ms ∧ r.ts_ms < 2 ^ 63 := by
  intro msgs
  induction msgs with
  | nil => intro k _ r hr; simp [assignRows] at hr
  | cons m ms ih =>
    intro k hwf r hr
    simp only [assignRows, List.mem_cons] at hr
    rcases hr with rfl | hr
    · have hm := (hwf m (by simp)).1
      simp only [dbRowOf, toI64_small hm]
      constructor
      · exact Int.ofNat_nonneg m.timestamp
      · exact_mod_cast hm
    · exact ih (k + 1) (fun x hx => hwf x (by simp [hx])) r hr

theorem recLt_rtr {a b : DbRow} (ha : 0 ≤ a.ts_ms ∧ a.ts_ms < 2 ^ 63)
    (hb : 0 ≤ b.ts_ms ∧ b.ts_ms < 2 ^ 63)
    (h : keyLt (rowKey a) (rowKey b)) :
    recLt (row_to_record a) (row_to_record b) := by
  have ha2 : a.ts_ms < 2 ^ 64 := by omega
  have hb2 : b.ts_ms < 2 ^ 64 := by omega
  simp only [keyLt, rowKey] at h
  simp only [recLt, row_to_record]
  rcases h with hts | ⟨hts, hid⟩
  · left
    exact (toU64_lt_iff ha.1 ha2 hb.1 hb2).2 hts
  · right
    exact ⟨(toU64_eq_iff ha.1 ha2 hb.1 hb2).2 hts, hid⟩

/-- C3: round-trip law — appending a non-empty batch to a fresh store and
querying the latest page with an effective limit (after the [1,1000] clamp)
at least the batch size returns exactly the appended records, ordered
chronologically oldest-first under the `(timestamp, id)` key; internally the
rows are fetched newest-first for `LIMIT` and reversed before return, as
embedded in `query_latest_rows`. -/
theorem append_then_query_latest_round_trip (execFails : Nat → Bool)
    (commitFails : Bool) (msgs : List MqttBatchItem) (limit : Nat) (st : Store)
    (hne : msgs ≠ []) (hwf : batchWf msgs)
    (hlim : msgs.length ≤ clampLimit limit)
    (happend : HistoryManager.append_batch execFails commitFails
      (some emptyStore) msgs = (some st, none)) :
    (HistoryManager.query_latest (some st) limit).2 =
        .ok (query_latest_rows st (clampLimit limit)) ∧
      (query_latest_rows st (clampLimit limit)).Perm (recordsOfBatch 1 msgs) ∧
      (query_latest_rows st (clampLimit limit)).Pairwise recLt := by
  have hbe : msgs.isEmpty = false := by
    cases msgs with
    | nil => exact absurd rfl hne
    | cons _ _ => rfl
  have hst : st = ⟨assignRows 1 msgs, 1 + msgs.length⟩ := by
    rcases insertLoop_spec execFails msgs 0 emptyStore with ⟨e, he⟩ | hok
    · have happ2 : HistoryManager.append_batch execFails commitFails
          (some emptyStore) msgs = (some emptyStore, some e) := by
        simp only [HistoryManager.append_batch, insert_batch, hbe,
          Bool.false_eq_true, if_false, Option.getD_some]
        rw [he]
      rw [happ2] at happend
      simp at happend
    · by_cases hc : commitFails = true
      · have happ2 : HistoryManager.append_batch execFails commitFails
            (some emptyStore) msgs =
            (some emptyStore, some "failed to commit history transaction") := by
          simp only [HistoryManager.append_batch, insert_batch, hbe,
            Bool.false_eq_true, if_false, Option.getD_some]
          rw [hok]
          simp [hc]
        rw [happ2] at happend
        simp at happend
      · simp only [Bool.not_eq_true] at hc
        have happ2 : HistoryManager.append_batch execFails commitFails
            (some emptyStore) msgs =
            (some ⟨assignRows 1 msgs, 1 + msgs.length⟩, none) := by
          simp only [HistoryManager.append_batch, insert_batch, hbe,
            Bool.false_eq_true, if_false, Option.getD_some]
          rw [hok]
          simp [hc, emptyStore]
        have h2 := happ2.symm.trans happend
        simp only [Prod.mk.injEq, Option.some.injEq] at h2
        exact h2.1.symm
  subst hst
  have hAperm : (List.insertionSort descRel (assignRows 1 msgs)).Perm
      (assignRows 1 msgs) := List.perm_insertionSort descRel _
  have hlen : (List.insertionSort descRel (assignRows 1 msgs)).length =
      msgs.length := by
    rw [hAperm.length_eq, assignRows_length]
  have htake : (List.insertionSort descRel (assignRows 1 msgs)).take
      (clampLimit limit) = List.insertionSort descRel (assignRows 1 msgs) :=
    List.take_of_length_le (by rw [hlen]; exact hlim)
  have hq : query_latest_rows ⟨assignRows 1 msgs, 1 + msgs.length⟩
      (clampLimit limit) =
      ((List.insertionSort descRel (assignRows 1 msgs)).map
        row_to_record).reverse := by
    unfold query_latest_rows
    rw [show (Store.mk (assignRows 1 msgs) (1 + msgs.length)).rows =
      assignRows 1 msgs from rfl, htake]
  have hnodupA : ((List.insertionSort descRel (assignRows 1 msgs)).map
      DbRow.id).Nodup :=
    (hAperm.map DbRow.id).nodup_iff.2 (assignRows_ids_nodup msgs 1)
  have hstrict := pairwise_keyLt_of_sorted_nodup _
    (List.sorted_insertionSort descRel (assignRows 1 msgs)) hnodupA
  refine ⟨rfl, ?_, ?_⟩
  · rw [hq]
    have p12 : ((List.insertionSort descRel (assignRows 1 msgs)).map
        row_to_record).reverse.Perm ((assignRows 1 msgs).map row_to_record) :=
      (List.reverse_perm _).trans (hAperm.map row_to_record)
    rw [map_rtr_assignRows msgs 1 hwf] at p12
    exact p12
  · rw [hq, List.pairwise_reverse, List.pairwise_map]
    refine hstrict.imp_of_mem ?_
    intro a b ha hb hlt
    exact recLt_rtr
      (assignRows_ts_nonneg msgs 1 hwf b (hAperm.subset hb))
      (assignRows_ts_nonneg msgs 1 hwf a (hAperm.subset ha)) hlt

theorem pagesFrom_perm (s : Store) (hwf : storeWf s) (limit : Nat)
    (hL : 1 ≤ limit) :
    ∀ (fuel : Nat) (c : Nat × Int),
      (s.rows.filter (fun r => decide (olderThan (toI64 c.1) c.2 r))).length ≤
        fuel →
      (pagesFrom s limit c fuel).Perm
        ((s.rows.filter
          (fun r => decide (olderThan (toI64 c.1) c.2 r))).map row_to_record) := by
  intro fuel
  induction fuel with
  | zero =>
    intro c hlen
    have hnil : s.rows.filter (fun r => decide (olderThan (toI64 c.1) c.2 r)) =
        [] := List.length_eq_zero.1 (Nat.le_zero.1 hlen)
    rw [hnil]
    simp [pagesFrom]
  | succ fuel ih =>
    intro c hlen
    cases hAe : List.insertionSort descRel
        (s.rows.filter (fun r => decide (olderThan (toI64 c.1) c.2 r))) with
    | nil =>
      have hperm := List.perm_insertionSort descRel
        (s.rows.filter (fun r => decide (olderThan (toI64 c.1) c.2 r)))
      rw [hAe] at hperm
      have hFnil : s.rows.filter (fun r => decide (olderThan (toI64 c.1) c.2 r)) =
          [] := hperm.nil_eq.symm
      have hpage : pageQuery s limit c = [] := by
        unfold pageQuery query_before_rows fetch_before
        rw [hAe]
        simp
      rw [hFnil]
      simp [pagesFrom, hpage]
    | cons a A2 =>
      have hperm : (a :: A2).Perm
          (s.rows.filter (fun r => decide (olderThan (toI64 c.1) c.2 r))) := by
        have := List.perm_insertionSort descRel
          (s.rows.filter (fun r => decide (olderThan (toI64 c.1) c.2 r)))
        rwa [hAe] at this
      have hsorted : (a :: A2).Sorted descRel := by
        have := List.sorted_insertionSort descRel
          (s.rows.filter (fun r => decide (olderThan (toI64 c.1) c.2 r)))
        rwa [hAe] at this
      have hnodup : ((a :: A2).map DbRow.id).Nodup := by
        have hsub : ((s.rows.filter
            (fun r => decide (olderThan (toI64 c.1) c.2 r))).map DbRow.id).Nodup :=
          List.Nodup.sublist ((List.filter_sublist s.rows).map DbRow.id) hwf.1
        exact (hperm.map DbRow.id).nodup_iff.2 hsub
      have hstrict := pairwise_keyLt_of_sorted_nodup _ hsorted hnodup
      have hTne : (a :: A2).take limit ≠ [] := by
        rw [Ne, List.take_eq_nil_iff]
        push_neg
        exact ⟨by omega, by simp⟩
      obtain ⟨x, hxeq⟩ : ∃ x, ((a :: A2).take limit).getLast hTne = x := ⟨_, rfl⟩
      have hxlast : ((a :: A2).take limit).getLast? = some x := by
        rw [List.getLast?_eq_getLast _ hTne, hxeq]
      have hxT : x ∈ (a :: A2).take limit := hxeq ▸ List.getLast_mem hTne
      have hxA : x ∈ a :: A2 := List.take_subset limit _ hxT
      have hxF : x ∈ s.rows.filter
          (fun r => decide (olderThan (toI64 c.1) c.2 r)) := hperm.subset hxA
      have hxP : olderThan (toI64 c.1) c.2 x := by
        simpa using List.of_mem_filter hxF
      have hxrows : x ∈ s.rows := List.mem_of_mem_filter hxF
      have hxts := hwf.2 x hxrows
      have hcursor : toI64 (toU64 x.ts_ms) = x.ts_ms := toI64_toU64 hxts.1 hxts.2
      have hpage : pageQuery s limit c =
          (((a :: A2).take limit).map row_to_record).reverse := by
        unfold pageQuery query_before_rows fetch_before
        rw [hAe]
      have hhead : (pageQuery s limit c).head? = some (row_to_record x) := by
        rw [hpage, List.head?_reverse, List.getLast?_map, hxlast]
        rfl
      have hdecomp : a :: A2 =
          ((a :: A2).take limit).dropLast ++ x :: (a :: A2).drop limit := by
        conv_lhs => rw [← List.take_append_drop limit (a :: A2)]
        conv_lhs =>
          rw [← List.dropLast_append_getLast hTne]
        rw [hxeq, List.append_assoc]
        rfl
      have hchunk : (a :: A2).filter
          (fun r => decide (olderThan x.ts_ms x.id r)) =
          (a :: A2).drop limit := by
        conv_lhs => rw [hdecomp]
        exact filter_olderThan_split _ _ _ (hdecomp ▸ hstrict)
      have himp : ∀ r : DbRow,
          olderThan x.ts_ms x.id r → olderThan (toI64 c.1) c.2 r := by
        intro r hr
        rw [olderThan_iff_keyLt] at hr hxP ⊢
        exact keyLt_trans hr hxP
      have hfilter2 : s.rows.filter (fun r => decide (olderThan x.ts_ms x.id r)) =
          (s.rows.filter (fun r => decide (olderThan (toI64 c.1) c.2 r))).filter
            (fun r => decide (olderThan x.ts_ms x.id r)) := by
        rw [List.filter_filter]
        refine (List.filter_congr ?_).symm
        intro rr _
        by_cases hp : olderThan x.ts_ms x.id rr
        · simp [hp, himp rr hp]
        · simp [hp]
      have hfperm : (s.rows.filter
          (fun r => decide (olderThan x.ts_ms x.id r))).Perm
          ((a :: A2).drop limit) := by
        have h1 := hperm.symm.filter (fun r => decide (olderThan x.ts_ms x.id r))
        rw [hchunk] at h1
        rw [hfilter2]
        exact h1
      have hlen2 : (s.rows.filter
          (fun r => decide (olderThan x.ts_ms x.id r))).length ≤ fuel := by
        rw [hfperm.length_eq, List.length_drop]
        have h3 : (a :: A2).length ≤ fuel + 1 := by
          rw [hperm.length_eq]
          exact hlen
        simp only [List.length_cons] at h3 ⊢
        omega
      have hih : (pagesFrom s limit (toU64 x.ts_ms, x.id) fuel).Perm
          ((s.rows.filter
            (fun r => decide (olderThan x.ts_ms x.id r))).map row_to_record) := by
        have := ih (toU64 x.ts_ms, x.id) (by simpa [hcursor] using hlen2)
        simpa [hcursor] using this
      have hunfold : pagesFrom s limit c (fuel + 1) =
          pageQuery s limit c ++
            pagesFrom s limit (toU64 x.ts_ms, x.id) fuel := by
        simp only [pagesFrom, hhead, row_to_record]
      rw [hunfold, hpage]
      have h4 : ((((a :: A2).take limit).map row_to_record).reverse).Perm
          (((a :: A2).take limit).map row_to_record) := List.reverse_perm _
      have h5 := hih.trans (hfperm.map row_to_record)
      have h6 := h4.append h5
      rw [← List.map_append, List.take_append_drop] at h6
      exact h6.trans (hperm.map row_to_record)

/-- C2 (amended): `query_before_rows` returns only records strictly older
than the cursor under the `(ts_ms, id)` lexicographic order — never a record
with key ≥ the cursor — and repeated paging that advances the cursor to the
oldest record of each returned page (the page's first element, equivalently
the last row fetched by the descending query) covers every record exactly
once, with no duplicates and no gaps. -/
theorem query_before_cursor_strict_and_paging_covers (s : Store)
    (beforeTs beforeId : Int) (limit : Nat) (c : Nat × Int) (fuel : Nat)
    (hwf : storeWf s) (hL : 1 ≤ limit) (hfuel : s.rows.length ≤ fuel)
    (htop : ∀ row ∈ s.rows, keyLt (rowKey row) (toI64 c.1, c.2)) :
    (∀ row ∈ fetch_before s beforeTs beforeId limit,
        keyLt (rowKey row) (beforeTs, beforeId)) ∧
      (∀ rec ∈ query_before_rows s beforeTs beforeId limit,
        keyLt (toI64 rec.timestamp, rec.id) (beforeTs, beforeId)) ∧
      (pagesFrom s limit c fuel).Perm (s.rows.map row_to_record) := by
  have part1 : ∀ row ∈ fetch_before s beforeTs beforeId limit,
      keyLt (rowKey row) (beforeTs, beforeId) := by
    intro row hrow
    have h1 : row ∈ List.insertionSort descRel
        (s.rows.filter (fun r => decide (olderThan beforeTs beforeId r))) :=
      List.mem_of_mem_take hrow
    have h2 : row ∈ s.rows.filter
        (fun r => decide (olderThan beforeTs beforeId r)) :=
      (List.perm_insertionSort descRel _).subset h1
    have h3 := List.of_mem_filter h2
    rw [← olderThan_iff_keyLt]
    simpa using h3
  refine ⟨part1, ?_, ?_⟩
  · intro rec hrec
    rw [query_before_rows, List.mem_reverse, List.mem_map] at hrec
    obtain ⟨row, hrow, hrec⟩ := hrec
    have hmemrows : row ∈ s.rows := by
      have h1 : row ∈ List.insertionSort descRel
          (s.rows.filter (fun r => decide (olderThan beforeTs beforeId r))) :=
        List.mem_of_mem_take hrow
      exact List.mem_of_mem_filter ((List.perm_insertionSort descRel _).subset h1)
    have hts := hwf.2 row hmemrows
    have hkey : (toI64 rec.timestamp, rec.id) = rowKey row := by
      subst hrec
      simp only [row_to_record, rowKey]
      rw [toI64_toU64 hts.1 hts.2]
    rw [hkey]
    exact part1 row hrow
  · have hfil : s.rows.filter (fun r => decide (olderThan (toI64 c.1) c.2 r)) =
        s.rows := by
      rw [List.filter_eq_self]
      intro row hrow
      rw [decide_eq_true_eq, olderThan_iff_keyLt]
      exact htop row hrow
    have := pagesFrom_perm s hwf limit hL fuel c (by rw [hfil]; exact hfuel)
    rwa [hfil] at this

/-- First row of the concrete three-row pagination store. -/
def cexRow1 : DbRow :=
  { id := 1, ts_ms := 1, topic := "t", payload := "a", qos := 0, retain := 0,
    direction := 0 }

/-- Second row of the concrete three-row pagination store. -/
def cexRow2 : DbRow :=
  { id := 2, ts_ms := 2, topic := "t", payload := "b", qos := 0, retain := 0,
    direction := 0 }

/-- Third (newest) row of the concrete three-row pagination store. -/
def cexRow3 : DbRow :=
  { id := 3, ts_ms := 3, topic := "t", payload := "c", qos := 0, retain := 0,
    direction := 0 }

/-- A concrete store with three rows at distinct timestamps. -/
def cexStore : Store := { rows := [cexRow1, cexRow2, cexRow3], nextId := 4 }

theorem query_before_cursor_strict_and_paging_covers_witness :
    storeWf cexStore ∧
      (pagesFrom cexStore 2 (10, 0) 3).Perm (cexStore.rows.map row_to_record) :=
  ⟨by decide,
    (query_before_cursor_strict_and_paging_covers cexStore 3 3 2 (10, 0) 3
      (by decide) (by decide) (by decide) (by decide)).2.2⟩

/-- C2 counterexample: paging with the literal *last returned* record of each
page — the newest record in the page, since pages are returned oldest→newest —
re-fetches records that were already returned: on a three-row store with page
size 2 the record with id 2 is returned twice, so that paging discipline does
not cover every record exactly once. -/
theorem pagesLast_duplicates :
    (pagesLast cexStore 2 (10, 0) 5).count (row_to_record cexRow2) = 2 ∧
      ¬ (pagesLast cexStore 2 (10, 0) 5).Perm (cexStore.rows.map row_to_record) := by
  constructor
  · decide
  · decide

/-- The store produced by appending the two sample messages to a fresh
store: ids 1 and 2 assigned at the shared timestamp 1000. -/
def cexLatestStore : Store :=
  { rows := [{ id := 1, ts_ms := 1000, topic := "a/b", payload := "1",
               qos := 0, retain := 0, direction := 0 },
             { id := 2, ts_ms := 1000, topic := "a/b", payload := "2",
               qos := 1, retain := 0, direction := 0 }],
    nextId := 3 }

theorem append_then_query_latest_round_trip_witness :
    (HistoryManager.query_latest (some cexLatestStore) 10).2 =
        .ok (query_latest_rows cexLatestStore (clampLimit 10)) ∧
      (query_latest_rows cexLatestStore (clampLimit 10)).Perm
        (recordsOfBatch 1 [sampleItem, sampleItem2]) ∧
      (query_latest_rows cexLatestStore (clampLimit 10)).Pairwise recLt :=
  append_then_query_latest_round_trip (fun _ => false) false
    [sampleItem, sampleItem2] 10 cexLatestStore (by decide) (by decide)
    (by decide) (by decide)
